import Mathlib

/-!
Verification of the unit-algebra core of `unit.hpp` (header-only C++20
dimensional-analysis library, repository `OguzhanUmutlu/unit.hpp`).

This file gives a shallow embedding, in Lean 4, of the v0.3 unit engine found
in the repository sources: the `BaseUnit` descriptor template, the type-level
compound-unit list `Unit<...>`, the algebra `MultiplyBaseUnitByUnit` /
`MultiplyUnits` / `InvertUnit` / `DivideUnits` / `ApplyScale`, the `Quantity`
arithmetic operators, and the stream-printing functions.  Type-level template
recursion becomes ordinary recursion over lists; `std::ratio` scale factors
become `Rat`; the `SubToBase`/`BaseToSub` conversion-function pair attached to
a descriptor becomes a tagged variant `Conv` (every descriptor built by the
library's macros carries either the identity pair `return_self`, a pure-ratio
pair, or an affine pair, and two descriptors compare equal in C++ exactly when
they were built from the same such data).  `double` magnitudes become `Rat`:
all magnitude facts proved here are exact field-arithmetic identities.
-/

namespace UnitHpp

/-- Tagged model of the `SubToBase`/`BaseToSub` conversion-function pair of a
`BaseUnit` descriptor.  `return_self` is the shared identity function used by
every plain base unit; `ratio n d` is the pair produced by
`__unithpp_SUB_RATIO` (sub-to-base multiplies by `n/d`); `affine c` is the
pair produced by `__unithpp_SUB` for celsius (sub-to-base adds `c`). -/
inductive Conv where
  | return_self : Conv
  | ratio : Int → Int → Conv
  | affine : Rat → Conv
deriving DecidableEq, Repr

/-- One base-unit descriptor: the template
`BaseUnit<BaseSymbol, Exponent, ScaleRatio, Prefix, SubSymbol, SubToBase,
BaseToSub>` of the v0.3 engine.  `pfx` models the `Prefix` display string. -/
structure BaseUnit where
  base_symbol : String
  exp : Int
  scale : Rat
  pfx : String
  sub_symbol : String
  conv : Conv
deriving DecidableEq, Repr

/-- A compound unit: the type-level list `Unit<BaseUnits...>`. -/
abbrev UnitT := List BaseUnit

/-- `MultiplyBaseUnitByUnit<NewBaseUnit, CurrentUnit>`: fold one descriptor
into a compound unit.  The merging partial specialization of the template
pattern-matches the head only when the incoming descriptor and the head agree
on *all* template arguments except the exponent (same `BaseSymbol`, `Scale`,
`Prefix`, `SubSymbol`, `SubToBase`, `BaseToSub`); then the exponents are
summed and a zero sum drops the descriptor.  Otherwise the head is kept and
the descriptor is folded into the tail (reaching `Unit<>` appends it). -/
def MultiplyBaseUnitByUnit (a : BaseUnit) : UnitT → UnitT
  | [] => [a]
  | b :: rest =>
    if a.base_symbol = b.base_symbol ∧ a.scale = b.scale ∧ a.pfx = b.pfx ∧
        a.sub_symbol = b.sub_symbol ∧ a.conv = b.conv then
      if a.exp + b.exp = 0 then rest
      else ⟨a.base_symbol, a.exp + b.exp, a.scale, a.pfx, a.sub_symbol, a.conv⟩ :: rest
    else b :: MultiplyBaseUnitByUnit a rest

/-- `MultiplyUnits<UnitA, UnitB>`: fold each descriptor of `B`, left to
right, into the accumulator starting from `A`. -/
def MultiplyUnits : UnitT → UnitT → UnitT
  | A, [] => A
  | A, hb :: tb => MultiplyUnits (MultiplyBaseUnitByUnit hb A) tb

/-- `InvertBaseUnit`: negate the exponent, keep every other field. -/
def InvertBaseUnit (b : BaseUnit) : BaseUnit :=
  ⟨b.base_symbol, -b.exp, b.scale, b.pfx, b.sub_symbol, b.conv⟩

/-- `InvertUnit`: invert every descriptor, preserving order. -/
def InvertUnit : UnitT → UnitT
  | [] => []
  | h :: t => InvertBaseUnit h :: InvertUnit t

/-- `DivideUnits<UnitA, UnitB> = MultiplyUnits<UnitA, InvertUnit<UnitB>>`. -/
def DivideUnits (A B : UnitT) : UnitT := MultiplyUnits A (InvertUnit B)

/-- `Quantity<ThisUnit, ThisValue>`: a raw value tagged with a compound unit.
The unit is a template parameter in C++; here it travels with the value. -/
structure Quantity where
  unit : UnitT
  raw_value : Rat
deriving DecidableEq, Repr

/-- `Quantity::operator+`: in C++ it is declared only for the *same*
`Quantity` type, so addition of differently-unitted quantities does not
compile.  The embedding returns `none` exactly in that statically rejected
case. -/
def qadd (q1 q2 : Quantity) : Option Quantity :=
  if q1.unit = q2.unit then some ⟨q1.unit, q1.raw_value + q2.raw_value⟩ else none

/-- `Quantity::operator-` (binary), same static shape as `qadd`. -/
def qsub (q1 q2 : Quantity) : Option Quantity :=
  if q1.unit = q2.unit then some ⟨q1.unit, q1.raw_value - q2.raw_value⟩ else none

/-- Result of `Quantity::operator*` / `operator/` on two quantities: the
`if constexpr` branch returns a bare number when the computed unit is
`Unit<>`, and a wrapped `Quantity` otherwise. -/
inductive MulResult where
  | bare : Rat → MulResult
  | wrapped : Quantity → MulResult
deriving DecidableEq, Repr

/-- `Quantity::operator*(const Quantity<OtherUnit>&)`. -/
def qmul (q1 q2 : Quantity) : MulResult :=
  if MultiplyUnits q1.unit q2.unit = [] then .bare (q1.raw_value * q2.raw_value)
  else .wrapped ⟨MultiplyUnits q1.unit q2.unit, q1.raw_value * q2.raw_value⟩

/-- `Quantity::operator/(const Quantity<OtherUnit>&)`. -/
def qdiv (q1 q2 : Quantity) : MulResult :=
  if DivideUnits q1.unit q2.unit = [] then .bare (q1.raw_value / q2.raw_value)
  else .wrapped ⟨DivideUnits q1.unit q2.unit, q1.raw_value / q2.raw_value⟩

/-- Free `operator/(long double lhs, const Quantity<U, V>& rhs)`: always
returns `Quantity<InvertUnit<U>, V>(lhs / rhs.raw_value)`. -/
def scalarDiv (lhs : Rat) (q : Quantity) : Quantity :=
  ⟨InvertUnit q.unit, lhs / q.raw_value⟩

/-- `ApplyScale<Q, Scalar, NewPrefix>`: the only non-failing specialization
matches `Quantity<Unit<BaseUnit<Sym, 1, OldScale, "", Sub, S2B, B2S>>>`
(single descriptor, exponent literally `1`, empty display prefix) and then
`static_assert`s that `OldScale` is `std::ratio<1>`; it multiplies the scale
by the scalar and installs the new prefix.  Every other operand shape hits a
failing `static_assert`, modelled by `none`. -/
def ApplyScale (u : UnitT) (scalar : Rat) (newPfx : String) : Option UnitT :=
  match u with
  | [b] =>
    if b.exp = 1 ∧ b.pfx = "" then
      if b.scale = 1 then
        some [⟨b.base_symbol, 1, b.scale * scalar, newPfx, b.sub_symbol, b.conv⟩]
      else none
    else none
  | _ => none

/-- `is_single_unit<T>`: true exactly for `Unit<Base>` with one descriptor. -/
def is_single_unit (u : UnitT) : Bool :=
  match u with
  | [_] => true
  | _ => false

/-- The `requires` clause of the cross-unit conversion constructor
`Quantity::Quantity(const Quantity<OtherUnit, OtherValue>&)`: both units must
be single-descriptor, with equal `base_symbol` and equal exponent. -/
def conversionAllowed (src tgt : UnitT) : Bool :=
  match src, tgt with
  | [a], [b] => (a.base_symbol == b.base_symbol) && (a.exp == b.exp)
  | _, _ => false

/-- Ratio carried by a conversion tag, for pure-ratio sub-units (`1` for the
identity pair; affine pairs are not pure-ratio and the claim restricts its
formula to the pure-ratio case). -/
def convRatio : Conv → Rat
  | .return_self => 1
  | .ratio n d => (n : Rat) / (d : Rat)
  | .affine _ => 1

/-- Modelled from the spec: the magnitude computed by the single-dimension
conversion constructor for pure-ratio sub-units.  The constructor body in the
source is ill-formed (it reads `SourceBase::sub_ratio` and
`TargetBase::sub_ratio`, members `BaseUnit` does not declare), so the factor
`F = (source.scale · source ratio) / (target.scale · target ratio)` and the
result `magnitude · F^exponent` are taken from the spec's words (§4.2). -/
def specConvert (src tgt : BaseUnit) (mag : Rat) : Rat :=
  mag * ((src.scale * convRatio src.conv) / (tgt.scale * convRatio tgt.conv)) ^ tgt.exp

/-- The template pattern of the v0.3 angle functions (`sin`, `cos`, ...):
the argument must be `Quantity<Unit<BaseUnit<"rad", 1, std::ratio<1>, "",
SubSymbol, SubToBase, BaseToSub>>, V>` — base symbol `"rad"`, exponent `1`,
unscaled, no display prefix; the sub-symbol and conversion pair are free. -/
def radArgAccepted (u : UnitT) : Bool :=
  match u with
  | [b] => (b.base_symbol == "rad") && (b.exp == 1) && (b.scale == 1) && (b.pfx == "")
  | _ => false

/-- `print_base_unit<BaseUnit>`: nothing for exponent 0; otherwise prefix and
sub-symbol, with `^exp` appended when the exponent is not 1. -/
def print_base_unit (b : BaseUnit) : String :=
  if b.exp = 0 then ""
  else b.pfx ++ b.sub_symbol ++ (if b.exp = 1 then "" else "^" ++ toString b.exp)

/-- `print_unit_impl`: each descriptor rendered in stored order with `"*"`
printed after every descriptor except the last. -/
def print_unit_impl : UnitT → String
  | [] => ""
  | [b] => print_base_unit b
  | b :: c :: rest => print_base_unit b ++ "*" ++ print_unit_impl (c :: rest)

/-- `operator<<(std::ostream&, const Quantity&)`: the magnitude text, then —
unless the unit is `Unit<>` — a space and the unit expression. -/
def printQuantity (magStr : String) (u : UnitT) : String :=
  magStr ++ (if u = [] then "" else " " ++ print_unit_impl u)

/-- Catalog descriptor for `meter` (`__unithpp_BASE(meter, m)`). -/
def meterBU : BaseUnit := ⟨"m", 1, 1, "", "m", Conv.return_self⟩

/-- Catalog descriptor for `second` (`__unithpp_BASE(second, s)`). -/
def secondBU : BaseUnit := ⟨"s", 1, 1, "", "s", Conv.return_self⟩

/-- Catalog descriptor for `mile`
(`__unithpp_SUB_RATIO(mile, m, mi, 1609344, 1000)`). -/
def mileBU : BaseUnit := ⟨"m", 1, 1, "", "mi", Conv.ratio 1609344 1000⟩

/-- Catalog descriptor for `radians` (`__unithpp_BASE_NOSCALE(radians, rad)`). -/
def radiansBU : BaseUnit := ⟨"rad", 1, 1, "", "rad", Conv.return_self⟩

/-- Catalog descriptor for `degrees` (`__unithpp_SUB_RATIO(degrees, rad, deg,
3141592653589793238, 180000000000000000)`). -/
def degreesBU : BaseUnit :=
  ⟨"rad", 1, 1, "", "deg", Conv.ratio 3141592653589793238 180000000000000000⟩

/-- The merge key of a descriptor: every template argument except the
exponent.  The merging specialization of `MultiplyBaseUnitByUnit` fires
exactly when two descriptors share this key. -/
def buKey (b : BaseUnit) : String × Rat × String × String × Conv :=
  (b.base_symbol, b.scale, b.pfx, b.sub_symbol, b.conv)

/-- Summed exponent of a base dimension symbol over a compound unit,
treating absence as 0. -/
def symExp : UnitT → String → Int
  | [], _ => 0
  | b :: t, s => (if b.base_symbol = s then b.exp else 0) + symExp t s

/-- Summed exponent of a full merge key over a compound unit. -/
def keyExp : UnitT → String × Rat × String × String × Conv → Int
  | [], _ => 0
  | b :: t, k => (if buKey b = k then b.exp else 0) + keyExp t k

/-- A base symbol occurs in a compound unit. -/
abbrev hasSym (u : UnitT) (s : String) : Prop := ∃ b ∈ u, b.base_symbol = s

/-- A merge key occurs in a compound unit. -/
abbrev hasKey (u : UnitT) (k : String × Rat × String × String × Conv) : Prop :=
  ∃ b ∈ u, buKey b = k

/-- Compound-unit invariant: pairwise-distinct merge keys. -/
abbrev nodupKeys (u : UnitT) : Prop := (u.map buKey).Nodup

/-- Compound-unit invariant: no stored descriptor has exponent 0. -/
abbrev allNonzero (u : UnitT) : Prop := ∀ b ∈ u, b.exp ≠ 0

/-- Spec-side joining of rendered descriptors "with a multiplication marker
joining consecutive descriptors" (spec §4.3); used only to compare the
source's `print_unit_impl` against the spec's wording. -/
def joinMul : List String → String
  | [] => ""
  | [x] => x
  | x :: y :: t => x ++ "*" ++ joinMul (y :: t)

/-- Spec-side symbol expression of §4.3: each descriptor's display prefix
concatenated with its display symbol, suffixed by caret and exponent exactly
when the exponent is not 1, joined by the multiplication marker. -/
def specSymbolExpr (u : UnitT) : String :=
  joinMul (u.map fun b =>
    b.pfx ++ b.sub_symbol ++ (if b.exp = 1 then "" else "^" ++ toString b.exp))

/-- Two descriptors fire the merging specialization of
`MultiplyBaseUnitByUnit` exactly when their merge keys coincide. -/
lemma buKey_eq_iff (a b : BaseUnit) :
    buKey a = buKey b ↔
      (a.base_symbol = b.base_symbol ∧ a.scale = b.scale ∧ a.pfx = b.pfx ∧
        a.sub_symbol = b.sub_symbol ∧ a.conv = b.conv) := by
  simp [buKey]

/-- Unfolding of `MultiplyBaseUnitByUnit` on a non-empty unit, with the
template-matching condition phrased through the merge key. -/
lemma mbbu_cons (a b : BaseUnit) (rest : UnitT) :
    MultiplyBaseUnitByUnit a (b :: rest) =
      if buKey a = buKey b then
        if a.exp + b.exp = 0 then rest
        else ⟨a.base_symbol, a.exp + b.exp, a.scale, a.pfx, a.sub_symbol, a.conv⟩ :: rest
      else b :: MultiplyBaseUnitByUnit a rest := by
  by_cases h : buKey a = buKey b
  · rw [MultiplyBaseUnitByUnit, if_pos ((buKey_eq_iff a b).mp h), if_pos h]
  · rw [MultiplyBaseUnitByUnit, if_neg (fun hc => h ((buKey_eq_iff a b).mpr hc)), if_neg h]

/-- Folding one descriptor into a unit adds its exponent to the summed
exponent of every base symbol. -/
lemma symExp_mbbu (a : BaseUnit) (u : UnitT) (s : String) :
    symExp (MultiplyBaseUnitByUnit a u) s
      = (if a.base_symbol = s then a.exp else 0) + symExp u s := by
  induction u with
  | nil => simp [MultiplyBaseUnitByUnit, symExp]
  | cons b t ih =>
    rw [mbbu_cons]
    by_cases hk : buKey a = buKey b
    · have hsym : a.base_symbol = b.base_symbol := ((buKey_eq_iff a b).mp hk).1
      rw [if_pos hk]
      by_cases hz : a.exp + b.exp = 0
      · rw [if_pos hz, symExp, hsym]
        by_cases hs : b.base_symbol = s <;> simp [hs] <;> omega
      · rw [if_neg hz, symExp, symExp]
        simp only [hsym]
        by_cases hs : b.base_symbol = s <;> simp [hs] <;> omega
    · rw [if_neg hk, symExp, ih, symExp]
      ring

/-- Folding one descriptor into a unit adds its exponent to the summed
exponent of every merge key. -/
lemma keyExp_mbbu (a : BaseUnit) (u : UnitT)
    (k : String × Rat × String × String × Conv) :
    keyExp (MultiplyBaseUnitByUnit a u) k
      = (if buKey a = k then a.exp else 0) + keyExp u k := by
  induction u with
  | nil => simp [MultiplyBaseUnitByUnit, keyExp]
  | cons b t ih =>
    rw [mbbu_cons]
    by_cases hk : buKey a = buKey b
    · rw [if_pos hk]
      by_cases hz : a.exp + b.exp = 0
      · rw [if_pos hz, keyExp, hk]
        by_cases hs : buKey b = k <;> simp [hs] <;> omega
      · rw [if_neg hz, keyExp, keyExp]
        have hmk : buKey (⟨a.base_symbol, a.exp + b.exp, a.scale, a.pfx,
            a.sub_symbol, a.conv⟩ : BaseUnit) = buKey a := rfl
        rw [hmk, hk]
        by_cases hs : buKey b = k <;> simp [hs] <;> omega
    · rw [if_neg hk, keyExp, ih, keyExp]
      ring

/-- Exponent additivity of `MultiplyUnits` at the level of base symbols,
with no hypothesis at all: summed exponents always add. -/
lemma symExp_mul (A B : UnitT) (s : String) :
    symExp (MultiplyUnits A B) s = symExp A s + symExp B s := by
  induction B generalizing A with
  | nil => simp [MultiplyUnits, symExp]
  | cons hb tb ih =>
    rw [MultiplyUnits, ih, symExp_mbbu, symExp]
    ring

/-- Exponent additivity of `MultiplyUnits` at the level of merge keys. -/
lemma keyExp_mul (A B : UnitT) (k : String × Rat × String × String × Conv) :
    keyExp (MultiplyUnits A B) k = keyExp A k + keyExp B k := by
  induction B generalizing A with
  | nil => simp [MultiplyUnits, keyExp]
  | cons hb tb ih =>
    rw [MultiplyUnits, ih, keyExp_mbbu, keyExp]
    ring

/-- `InvertUnit` is exactly exponent negation applied descriptor-wise. -/
lemma InvertUnit_eq_map (A : UnitT) :
    InvertUnit A
      = A.map (fun b => ⟨b.base_symbol, -b.exp, b.scale, b.pfx, b.sub_symbol, b.conv⟩) := by
  induction A with
  | nil => rfl
  | cons h t ih => rw [InvertUnit, List.map_cons, ih]; rfl

/-- A descriptor of `MultiplyBaseUnitByUnit a u` either carries `a`'s merge
key or was already in `u`. -/
lemma mem_mbbu {c a : BaseUnit} {u : UnitT}
    (h : c ∈ MultiplyBaseUnitByUnit a u) : buKey c = buKey a ∨ c ∈ u := by
  induction u with
  | nil =>
    rw [MultiplyBaseUnitByUnit, List.mem_singleton] at h
    exact Or.inl (by rw [h])
  | cons b t ih =>
    rw [mbbu_cons] at h
    by_cases hk : buKey a = buKey b
    · rw [if_pos hk] at h
      by_cases hz : a.exp + b.exp = 0
      · rw [if_pos hz] at h
        exact Or.inr (List.mem_cons_of_mem _ h)
      · rw [if_neg hz] at h
        rcases List.mem_cons.mp h with h1 | h1
        · exact Or.inl (by rw [h1]; rfl)
        · exact Or.inr (List.mem_cons_of_mem _ h1)
    · rw [if_neg hk] at h
      rcases List.mem_cons.mp h with h1 | h1
      · exact Or.inr (h1 ▸ List.mem_cons_self b t)
      · rcases ih h1 with h2 | h2
        · exact Or.inl h2
        · exact Or.inr (List.mem_cons_of_mem _ h2)

/-- Every merge key occurring in a product occurs in one of the factors. -/
lemma mem_mul {c : BaseUnit} {A B : UnitT} (h : c ∈ MultiplyUnits A B) :
    (∃ x ∈ A, buKey c = buKey x) ∨ (∃ x ∈ B, buKey c = buKey x) := by
  induction B generalizing A with
  | nil =>
    rw [MultiplyUnits] at h
    exact Or.inl ⟨c, h, rfl⟩
  | cons hb tb ih =>
    rw [MultiplyUnits] at h
    rcases ih h with h1 | h1
    · rcases h1 with ⟨x, hx, hkey⟩
      rcases mem_mbbu hx with h2 | h2
      · exact Or.inr ⟨hb, List.mem_cons_self _ _, by rw [hkey, h2]⟩
      · exact Or.inl ⟨x, h2, hkey⟩
    · rcases h1 with ⟨x, hx, hkey⟩
      exact Or.inr ⟨x, List.mem_cons_of_mem _ hx, hkey⟩

/-- Folding a nonzero-exponent descriptor into a unit with nonzero
exponents yields only nonzero exponents (a zero merged sum is dropped). -/
lemma allNonzero_mbbu {a : BaseUnit} (ha : a.exp ≠ 0) :
    ∀ u : UnitT, allNonzero u → allNonzero (MultiplyBaseUnitByUnit a u) := by
  intro u
  induction u with
  | nil =>
    intro _ c hc
    rw [MultiplyBaseUnitByUnit, List.mem_singleton] at hc
    rw [hc]; exact ha
  | cons b t ih =>
    intro hu c hc
    rw [mbbu_cons] at hc
    by_cases hk : buKey a = buKey b
    · rw [if_pos hk] at hc
      by_cases hz : a.exp + b.exp = 0
      · rw [if_pos hz] at hc
        exact hu c (List.mem_cons_of_mem _ hc)
      · rw [if_neg hz] at hc
        rcases List.mem_cons.mp hc with h1 | h1
        · rw [h1]; exact hz
        · exact hu c (List.mem_cons_of_mem _ h1)
    · rw [if_neg hk] at hc
      rcases List.mem_cons.mp hc with h1 | h1
      · rw [h1]; exact hu b (List.mem_cons_self _ _)
      · exact ih (fun x hx => hu x (List.mem_cons_of_mem _ hx)) c h1

/-- `MultiplyUnits` preserves the nonzero-exponent invariant. -/
lemma allNonzero_mul :
    ∀ B A : UnitT, allNonzero A → allNonzero B → allNonzero (MultiplyUnits A B) := by
  intro B
  induction B with
  | nil => intro A hA _; rw [MultiplyUnits]; exact hA
  | cons hb tb ih =>
    intro A hA hB
    rw [MultiplyUnits]
    exact ih _ (allNonzero_mbbu (hB hb (List.mem_cons_self _ _)) A hA)
      (fun x hx => hB x (List.mem_cons_of_mem _ hx))

/-- Folding a descriptor into a unit with pairwise-distinct merge keys
yields pairwise-distinct merge keys. -/
lemma nodupKeys_mbbu (a : BaseUnit) :
    ∀ u : UnitT, nodupKeys u → nodupKeys (MultiplyBaseUnitByUnit a u) := by
  intro u
  induction u with
  | nil =>
    intro _
    rw [MultiplyBaseUnitByUnit]
    simp [nodupKeys]
  | cons b t ih =>
    intro hu
    rw [nodupKeys, List.map_cons, List.nodup_cons] at hu
    obtain ⟨hbt, ht⟩ := hu
    rw [mbbu_cons]
    by_cases hk : buKey a = buKey b
    · rw [if_pos hk]
      by_cases hz : a.exp + b.exp = 0
      · rw [if_pos hz]; exact ht
      · rw [if_neg hz]
        rw [nodupKeys, List.map_cons, List.nodup_cons]
        refine ⟨?_, ht⟩
        have hmk : buKey (⟨a.base_symbol, a.exp + b.exp, a.scale, a.pfx,
            a.sub_symbol, a.conv⟩ : BaseUnit) = buKey a := rfl
        rw [hmk, hk]
        exact hbt
    · rw [if_neg hk]
      rw [nodupKeys, List.map_cons, List.nodup_cons]
      refine ⟨?_, ih ht⟩
      intro hmem
      rw [List.mem_map] at hmem
      obtain ⟨c, hc, hcb⟩ := hmem
      rcases mem_mbbu hc with h1 | h1
      · exact hk (by rw [← hcb, h1])
      · exact hbt (List.mem_map.mpr ⟨c, h1, hcb⟩)

/-- `MultiplyUnits` preserves the distinct-merge-keys invariant. -/
lemma nodupKeys_mul : ∀ B A : UnitT, nodupKeys A → nodupKeys (MultiplyUnits A B) := by
  intro B
  induction B with
  | nil => intro A hA; rw [MultiplyUnits]; exact hA
  | cons hb tb ih =>
    intro A hA
    rw [MultiplyUnits]
    exact ih _ (nodupKeys_mbbu hb A hA)

/-- A merge key absent from a unit contributes a zero summed exponent. -/
lemma keyExp_eq_zero {k : String × Rat × String × String × Conv} :
    ∀ u : UnitT, ¬ hasKey u k → keyExp u k = 0 := by
  intro u
  induction u with
  | nil => intro _; rfl
  | cons b t ih =>
    intro h
    rw [keyExp]
    have hb : ¬ buKey b = k := fun hc => h ⟨b, List.mem_cons_self _ _, hc⟩
    rw [if_neg hb, ih (fun hc => by
      rcases hc with ⟨c, hc1, hc2⟩
      exact h ⟨c, List.mem_cons_of_mem _ hc1, hc2⟩)]
    omega

/-- Under the compound-unit invariants, a merge key present in a unit has a
nonzero summed exponent. -/
lemma keyExp_ne_zero {k : String × Rat × String × String × Conv} :
    ∀ u : UnitT, nodupKeys u → allNonzero u → hasKey u k → keyExp u k ≠ 0 := by
  intro u
  induction u with
  | nil =>
    intro _ _ hk
    rcases hk with ⟨b, hb, _⟩
    exact absurd hb (List.not_mem_nil b)
  | cons b t ih =>
    intro hnd hnz hk
    rw [nodupKeys, List.map_cons, List.nodup_cons] at hnd
    obtain ⟨hbt, ht⟩ := hnd
    rw [keyExp]
    by_cases hbk : buKey b = k
    · rw [if_pos hbk]
      have habs : ¬ hasKey t k := by
        rintro ⟨c, hc, hck⟩
        exact hbt (by rw [hbk, ← hck]; exact List.mem_map.mpr ⟨c, hc, rfl⟩)
      rw [keyExp_eq_zero t habs, add_zero]
      exact hnz b (List.mem_cons_self _ _)
    · rw [if_neg hbk, zero_add]
      apply ih ht (fun x hx => hnz x (List.mem_cons_of_mem _ hx))
      rcases hk with ⟨c, hc, hck⟩
      rcases List.mem_cons.mp hc with h1 | h1
      · exact absurd (h1 ▸ hck) hbk
      · exact ⟨c, h1, hck⟩

/-- When every descriptor of a unit carrying symbol `s` carries the same
merge key `k` (whose symbol component is `s`), the symbol-level and
key-level summed exponents agree. -/
lemma symExp_eq_keyExp {s : String} {k : String × Rat × String × String × Conv}
    (hks : k.1 = s) :
    ∀ u : UnitT, (∀ b ∈ u, b.base_symbol = s → buKey b = k) →
      symExp u s = keyExp u k := by
  intro u
  induction u with
  | nil => intro _; rfl
  | cons b t ih =>
    intro h
    rw [symExp, keyExp, ih (fun c hc => h c (List.mem_cons_of_mem _ hc))]
    congr 1
    by_cases hs : b.base_symbol = s
    · rw [if_pos hs, if_pos (h b (List.mem_cons_self _ _) hs)]
    · rw [if_neg hs, if_neg (fun hc : buKey b = k => hs (by rw [← hks, ← hc]; rfl))]

/-- A nonzero summed exponent forces the symbol to occur. -/
lemma hasSym_of_symExp_ne_zero {s : String} :
    ∀ u : UnitT, symExp u s ≠ 0 → hasSym u s := by
  intro u
  induction u with
  | nil => intro h; exact absurd rfl h
  | cons b t ih =>
    intro h
    by_cases hs : b.base_symbol = s
    · exact ⟨b, List.mem_cons_self _ _, hs⟩
    · rw [symExp, if_neg hs, zero_add] at h
      rcases ih h with ⟨c, hc, hcs⟩
      exact ⟨c, List.mem_cons_of_mem _ hc, hcs⟩

/-- Claim C1 (amended).  First part, unconditional: for all compound units
`A`, `B` and every base symbol `s`, the summed exponent of `s` in
`MultiplyUnits A B` equals the summed exponent in `A` plus the summed
exponent in `B` (absence counting as 0).  Second part: under the
compound-unit invariants (pairwise-distinct merge keys, no zero exponents)
and the additional hypothesis that every descriptor of `A` or `B` carrying
`s` also carries the same scale/prefix/display-symbol/conversion metadata,
`s` is absent from the product exactly when the sum is 0.  The metadata
hypothesis cannot be dropped: descriptors whose metadata differ never merge
(see the C1 counterexample). -/
theorem C1_exponent_additivity :
    (∀ (A B : UnitT) (s : String),
        symExp (MultiplyUnits A B) s = symExp A s + symExp B s) ∧
    (∀ (A B : UnitT) (s : String),
        nodupKeys A → allNonzero A → nodupKeys B → allNonzero B →
        (∀ a ∈ A ++ B, ∀ b ∈ A ++ B,
            a.base_symbol = s → b.base_symbol = s → buKey a = buKey b) →
        (hasSym (MultiplyUnits A B) s ↔ symExp A s + symExp B s ≠ 0)) := by
  refine ⟨symExp_mul, ?_⟩
  intro A B s hA hzA hB hzB hmeta
  constructor
  · rintro ⟨b0, hb0, hb0s⟩
    have hx : ∃ x, x ∈ A ++ B ∧ buKey b0 = buKey x := by
      rcases mem_mul hb0 with ⟨x, hxA, hk⟩ | ⟨x, hxB, hk⟩
      · exact ⟨x, List.mem_append_left _ hxA, hk⟩
      · exact ⟨x, List.mem_append_right _ hxB, hk⟩
    obtain ⟨x, hxAB, hxkey⟩ := hx
    have hxs : x.base_symbol = s := by
      have h1 : (buKey b0).1 = b0.base_symbol := rfl
      have h2 : (buKey x).1 = x.base_symbol := rfl
      rw [← h2, ← hxkey, h1, hb0s]
    have hfst : (buKey x).1 = s := hxs
    have hAk : ∀ b ∈ A, b.base_symbol = s → buKey b = buKey x :=
      fun b hb hbs => hmeta b (List.mem_append_left _ hb) x hxAB hbs hxs
    have hBk : ∀ b ∈ B, b.base_symbol = s → buKey b = buKey x :=
      fun b hb hbs => hmeta b (List.mem_append_right _ hb) x hxAB hbs hxs
    rw [symExp_eq_keyExp hfst A hAk, symExp_eq_keyExp hfst B hBk, ← keyExp_mul]
    exact keyExp_ne_zero (MultiplyUnits A B) (nodupKeys_mul B A hA)
      (allNonzero_mul B A hzA hzB) ⟨b0, hb0, hxkey⟩
  · intro hne
    exact hasSym_of_symExp_ne_zero _ (by rw [symExp_mul]; exact hne)

/-- Concrete instantiation of the C1 theorem: `m · m⁻¹` with matching
metadata on both descriptors cancels to the dimensionless unit. -/
theorem C1_exponent_additivity_witness :
    (symExp (MultiplyUnits [meterBU] [InvertBaseUnit meterBU]) "m"
        = symExp [meterBU] "m" + symExp [InvertBaseUnit meterBU] "m") ∧
    (hasSym (MultiplyUnits [meterBU] [InvertBaseUnit meterBU]) "m"
        ↔ symExp [meterBU] "m" + symExp [InvertBaseUnit meterBU] "m" ≠ 0) :=
  ⟨C1_exponent_additivity.1 [meterBU] [InvertBaseUnit meterBU] "m",
   C1_exponent_additivity.2 [meterBU] [InvertBaseUnit meterBU] "m"
     (by decide) (by decide) (by decide) (by decide) (by decide)⟩

/-- Claim C1 as stated is false on the v0.3 engine: multiplying the `mile`
descriptor (base symbol `"m"`) by an inverted `meter` descriptor gives a
summed exponent of 0 for `"m"`, yet `"m"` is still present in the product,
because the two descriptors carry different metadata and never merge. -/
theorem C1_counterexample :
    symExp [mileBU] "m" + symExp [InvertBaseUnit meterBU] "m" = 0 ∧
    hasSym (MultiplyUnits [mileBU] [InvertBaseUnit meterBU]) "m" := by
  exact ⟨by decide, by decide⟩

/-- Claim C2 (amended).  The merging specialization of
`MultiplyBaseUnitByUnit` requires the two descriptors to agree on the whole
merge key — base symbol *and* scale, display prefix, display symbol,
conversion functions.  When the keys agree, the merge happens with that
shared metadata and the summed exponent (dropping a zero sum); when only the
base symbol agrees, no merge happens and both descriptors stay in the
result. -/
theorem C2_same_symbol_merge :
    (∀ a b : BaseUnit, buKey a = buKey b →
        MultiplyUnits [a] [b] =
          if a.exp + b.exp = 0 then []
          else [⟨a.base_symbol, a.exp + b.exp, a.scale, a.pfx, a.sub_symbol, a.conv⟩]) ∧
    (∀ a b : BaseUnit, a.base_symbol = b.base_symbol → buKey a ≠ buKey b →
        MultiplyUnits [a] [b] = [a, b]) := by
  constructor
  · intro a b hk
    obtain ⟨h1, h2, h3, h4, h5⟩ := (buKey_eq_iff a b).mp hk
    rw [MultiplyUnits, MultiplyUnits, mbbu_cons, if_pos hk.symm]
    rw [show b.exp + a.exp = a.exp + b.exp from Int.add_comm _ _]
    rw [h1, h2, h3, h4, h5]
  · intro a b _ hk
    rw [MultiplyUnits, MultiplyUnits, mbbu_cons,
      if_neg (fun hc => hk hc.symm), MultiplyBaseUnitByUnit]

/-- Concrete instantiation of the C2 theorem: same-key descriptors merge by
exponent addition, and the mismatched-metadata `mile · meter` pair does
not merge. -/
theorem C2_same_symbol_merge_witness :
    (buKey meterBU = buKey (⟨"m", 2, 1, "", "m", Conv.return_self⟩ : BaseUnit) ∧
      MultiplyUnits [meterBU] [⟨"m", 2, 1, "", "m", Conv.return_self⟩] =
        if meterBU.exp + (2 : Int) = 0 then []
        else [⟨"m", meterBU.exp + 2, 1, "", "m", Conv.return_self⟩]) ∧
    (buKey mileBU ≠ buKey meterBU ∧
      MultiplyUnits [mileBU] [meterBU] = [mileBU, meterBU]) :=
  ⟨⟨by decide, C2_same_symbol_merge.1 meterBU ⟨"m", 2, 1, "", "m", Conv.return_self⟩ (by decide)⟩,
   ⟨by decide, C2_same_symbol_merge.2 mileBU meterBU (by decide) (by decide)⟩⟩

/-- Claim C2 as stated is false: multiplying a `mile` unit by a `meter` unit
(same base symbol `"m"`, different display symbol and conversion metadata)
does not merge; the result keeps two descriptors with base symbol `"m"`. -/
theorem C2_counterexample :
    MultiplyUnits [mileBU] [meterBU] = [mileBU, meterBU] ∧
    mileBU.base_symbol = meterBU.base_symbol ∧
    (MultiplyUnits [mileBU] [meterBU]).countP (fun b => b.base_symbol == "m") = 2 := by
  exact ⟨by decide, by decide, by decide⟩

/-- Claim C3: `operator+`/`operator-` on quantities exist only for operands
of the identical `Quantity` type, i.e. the identical compound unit, metadata
included (`qadd`/`qsub` succeed exactly then); an accepted addition keeps the
unit and adds (resp. subtracts) the magnitudes; `3 m + 3 s` and `3 m + 3 mi`
are both rejected. -/
theorem C3_add_requires_identical_units :
    (∀ q1 q2 : Quantity, (qadd q1 q2).isSome ↔ q1.unit = q2.unit) ∧
    (∀ q1 q2 : Quantity, (qsub q1 q2).isSome ↔ q1.unit = q2.unit) ∧
    (∀ (u : UnitT) (m1 m2 : Rat), qadd ⟨u, m1⟩ ⟨u, m2⟩ = some ⟨u, m1 + m2⟩) ∧
    (∀ (u : UnitT) (m1 m2 : Rat), qsub ⟨u, m1⟩ ⟨u, m2⟩ = some ⟨u, m1 - m2⟩) ∧
    qadd ⟨[meterBU], 3⟩ ⟨[secondBU], 3⟩ = none ∧
    qadd ⟨[meterBU], 3⟩ ⟨[mileBU], 3⟩ = none := by
  refine ⟨?_, ?_, ?_, ?_, by decide, by decide⟩
  · intro q1 q2
    by_cases h : q1.unit = q2.unit <;> simp [qadd, h]
  · intro q1 q2
    by_cases h : q1.unit = q2.unit <;> simp [qsub, h]
  · intro u m1 m2; simp [qadd]
  · intro u m1 m2; simp [qsub]

/-- Claim C4: for every compound unit `A`, `MultiplyUnits A (InvertUnit A)`
is exactly the empty (dimensionless) unit, where `InvertUnit` negates every
descriptor's exponent and leaves all metadata unchanged. -/
theorem C4_multiply_invert_closure :
    (∀ A : UnitT, MultiplyUnits A (InvertUnit A) = []) ∧
    (∀ A : UnitT, InvertUnit A
        = A.map (fun b => ⟨b.base_symbol, -b.exp, b.scale, b.pfx, b.sub_symbol, b.conv⟩)) := by
  refine ⟨?_, InvertUnit_eq_map⟩
  intro A
  induction A with
  | nil => rfl
  | cons a t ih =>
    rw [InvertUnit, MultiplyUnits, mbbu_cons,
      if_pos (show buKey (InvertBaseUnit a) = buKey a from rfl),
      if_pos (show (InvertBaseUnit a).exp + a.exp = 0 from neg_add_cancel a.exp)]
    exact ih

/-- Claim C5: `Quantity::operator*`/`operator/` return a bare number equal
to the product (resp. quotient) of the magnitudes exactly when the computed
unit is empty, and otherwise a quantity tagged with the computed unit; in
particular `(10 m/s) / (2 m/s)` is the bare number 5. -/
theorem C5_dimensionless_collapse :
    (∀ q1 q2 : Quantity, MultiplyUnits q1.unit q2.unit = [] →
        qmul q1 q2 = MulResult.bare (q1.raw_value * q2.raw_value)) ∧
    (∀ q1 q2 : Quantity, MultiplyUnits q1.unit q2.unit ≠ [] →
        qmul q1 q2 = MulResult.wrapped
          ⟨MultiplyUnits q1.unit q2.unit, q1.raw_value * q2.raw_value⟩) ∧
    (∀ q1 q2 : Quantity, DivideUnits q1.unit q2.unit = [] →
        qdiv q1 q2 = MulResult.bare (q1.raw_value / q2.raw_value)) ∧
    (∀ q1 q2 : Quantity, DivideUnits q1.unit q2.unit ≠ [] →
        qdiv q1 q2 = MulResult.wrapped
          ⟨DivideUnits q1.unit q2.unit, q1.raw_value / q2.raw_value⟩) ∧
    qdiv ⟨DivideUnits [meterBU] [secondBU], 10⟩ ⟨DivideUnits [meterBU] [secondBU], 2⟩
      = MulResult.bare 5 := by
  refine ⟨?_, ?_, ?_, ?_, ?_⟩
  · intro q1 q2 h; simp only [qmul, if_pos h]
  · intro q1 q2 h; simp only [qmul, if_neg h]
  · intro q1 q2 h; simp only [qdiv, if_pos h]
  · intro q1 q2 h; simp only [qdiv, if_neg h]
  · have h : DivideUnits (DivideUnits [meterBU] [secondBU])
        (DivideUnits [meterBU] [secondBU]) = [] := by decide
    simp [qdiv, h]
    norm_num

/-- Concrete instantiation of the C5 theorem: multiplying `2 m` by a
quantity of unit `m⁻¹` collapses to the bare number 6. -/
theorem C5_dimensionless_collapse_witness :
    MultiplyUnits [meterBU] [InvertBaseUnit meterBU] = [] ∧
    qmul ⟨[meterBU], 2⟩ ⟨[InvertBaseUnit meterBU], 3⟩ = MulResult.bare (2 * 3) :=
  ⟨by decide, C5_dimensionless_collapse.1 ⟨[meterBU], 2⟩ ⟨[InvertBaseUnit meterBU], 3⟩ (by decide)⟩

/-- Claim C6, guard side (which the code does implement): the conversion
constructor's `requires` clause accepts exactly single-descriptor units with
equal base symbol and equal exponent — `mile → meter` passes, differing base
symbols, differing exponents and compound units are rejected — and the
spec's pure-ratio formula sends 1 mile to 1609344/1000 meters.  The
constructor *body* in the source reads the nonexistent member
`BaseUnit::sub_ratio`, so the accepted conversions do not compile; the
magnitude formula is `specConvert`, modelled from the spec. -/
theorem C6_conversion_guard :
    conversionAllowed [mileBU] [meterBU] = true ∧
    conversionAllowed [meterBU] [secondBU] = false ∧
    conversionAllowed [⟨"m", 2, 1, "", "m", Conv.return_self⟩] [meterBU] = false ∧
    conversionAllowed (DivideUnits [meterBU] [secondBU]) [meterBU] = false ∧
    specConvert mileBU meterBU 1 = 1609344 / 1000 := by
  refine ⟨by decide, by decide, by decide, by decide, ?_⟩
  simp [specConvert, mileBU, meterBU, convRatio]

/-- Claim C7: the `ApplyScale` template is defined only for a
single-descriptor unit with exponent exactly 1 and scale 1/1 (and no display
prefix); compound units, powers, and already-scaled units are rejected by a
failing `static_assert`; a valid operand gets its scale multiplied by the
given ratio and the new display prefix installed. -/
theorem C7_apply_scale_guard :
    (∀ (u : UnitT) (r : Rat) (p : String), (ApplyScale u r p).isSome →
        ∃ b, u = [b] ∧ b.exp = 1 ∧ b.scale = 1) ∧
    (∀ (b : BaseUnit) (r : Rat) (p : String), b.exp = 1 → b.pfx = "" → b.scale = 1 →
        ApplyScale [b] r p
          = some [⟨b.base_symbol, 1, b.scale * r, p, b.sub_symbol, b.conv⟩]) ∧
    ApplyScale [⟨"m", 2, 1, "", "m", Conv.return_self⟩] 1000 "k" = none ∧
    ApplyScale [meterBU, InvertBaseUnit secondBU] 1000 "k" = none ∧
    ApplyScale [⟨"m", 1, 1000, "k", "m", Conv.return_self⟩] (1 / 100) "c" = none := by
  refine ⟨?_, ?_, by decide, by decide, by norm_num [ApplyScale]⟩
  · intro u r p h
    match u with
    | [] => simp [ApplyScale] at h
    | [b] =>
      by_cases h1 : b.exp = 1 ∧ b.pfx = ""
      · by_cases h2 : b.scale = 1
        · exact ⟨b, rfl, h1.1, h2⟩
        · simp [ApplyScale, h1, h2] at h
      · simp [ApplyScale, h1] at h
    | b :: c :: t => simp [ApplyScale] at h
  · intro b r p h1 h2 h3
    simp [ApplyScale, h1, h2, h3]

/-- Concrete instantiation of the C7 theorem: scaling the plain `meter`
descriptor by 1000 with prefix `"k"` is accepted and produces the kilometer
descriptor. -/
theorem C7_apply_scale_guard_witness :
    ((ApplyScale [meterBU] 1000 "k").isSome ∧ ∃ b, [meterBU] = [b] ∧ b.exp = 1 ∧ b.scale = 1) ∧
    ApplyScale [meterBU] 1000 "k"
      = some [⟨"m", 1, (1 : Rat) * 1000, "k", "m", Conv.return_self⟩] :=
  ⟨⟨by decide, C7_apply_scale_guard.1 [meterBU] 1000 "k" (by decide)⟩,
   C7_apply_scale_guard.2.1 meterBU 1000 "k" rfl rfl rfl⟩

/-- Claim C8, signature side (which the code does implement): the angle
functions' template pattern accepts exactly a single-descriptor unit on base
symbol `"rad"` with exponent 1, unit scale and empty prefix — so `degrees`
and `radians` arguments are accepted, while `meter`, `rad²` and compound
`rad/s` arguments are rejected.  The body `std::sin(radians(q).raw_value)`
then instantiates the conversion constructor, whose body reads the
nonexistent member `BaseUnit::sub_ratio`, so the non-radian calls the
pattern accepts do not compile. -/
theorem C8_angle_argument_shape :
    radArgAccepted [degreesBU] = true ∧
    radArgAccepted [radiansBU] = true ∧
    radArgAccepted [meterBU] = false ∧
    radArgAccepted [⟨"rad", 2, 1, "", "rad", Conv.return_self⟩] = false ∧
    radArgAccepted (MultiplyUnits [radiansBU] [InvertBaseUnit secondBU]) = false := by
  exact ⟨by decide, by decide, by decide, by decide, by decide⟩

/-- Claim C9: under the compound-unit invariant that no stored descriptor
has exponent 0, the source's `print_unit_impl` renders exactly the spec's
symbol expression (prefix ++ display symbol, `^exp` exactly when the
exponent is not 1, `*` between descriptors, stored order); a quantity prints
as magnitude, space, symbol expression, and a dimensionless quantity prints
as the magnitude alone. -/
theorem C9_rendering :
    (∀ u : UnitT, allNonzero u → print_unit_impl u = specSymbolExpr u) ∧
    (∀ (m : String) (u : UnitT), u ≠ [] →
        printQuantity m u = m ++ " " ++ print_unit_impl u) ∧
    (∀ m : String, printQuantity m [] = m) := by
  refine ⟨?_, ?_, ?_⟩
  · intro u
    induction u with
    | nil => intro _; rfl
    | cons b t ih =>
      intro h
      have hb : b.exp ≠ 0 := h b (List.mem_cons_self _ _)
      have ht : allNonzero t := fun x hx => h x (List.mem_cons_of_mem _ hx)
      match t with
      | [] =>
        show print_base_unit b = specSymbolExpr [b]
        rw [print_base_unit, if_neg hb]
        rfl
      | c :: t' =>
        show print_base_unit b ++ "*" ++ print_unit_impl (c :: t')
            = specSymbolExpr (b :: c :: t')
        rw [print_base_unit, if_neg hb, ih ht]
        rfl
  · intro m u h
    rw [printQuantity, if_neg h, ← String.append_assoc]
  · intro m
    rw [printQuantity, if_pos rfl, String.append_empty]

/-- Concrete instantiation of the C9 theorem: `m · s⁻¹` renders as
`"m*s^-1"` after the magnitude, and a bare magnitude prints alone. -/
theorem C9_rendering_witness :
    (allNonzero [meterBU, InvertBaseUnit secondBU] ∧
      print_unit_impl [meterBU, InvertBaseUnit secondBU]
        = specSymbolExpr [meterBU, InvertBaseUnit secondBU]) ∧
    printQuantity "5" [meterBU, InvertBaseUnit secondBU] = "5 m*s^-1" ∧
    printQuantity "5" [] = "5" :=
  ⟨⟨by decide, C9_rendering.1 [meterBU, InvertBaseUnit secondBU] (by decide)⟩,
   by decide, C9_rendering.2.2 "5"⟩

/-- Claim C10: dividing a bare scalar by a quantity always produces a
quantity whose unit is the inversion of the operand's unit (every exponent
negated, metadata unchanged) and whose magnitude is the scalar divided by
the operand's magnitude; with scalar 1 on a `second` quantity this yields a
reciprocal-second (hertz) quantity. -/
theorem C10_scalar_division_inverts :
    (∀ (k : Rat) (q : Quantity),
        (scalarDiv k q).unit
            = q.unit.map (fun b => ⟨b.base_symbol, -b.exp, b.scale, b.pfx, b.sub_symbol, b.conv⟩) ∧
        (scalarDiv k q).raw_value = k / q.raw_value) ∧
    scalarDiv 1 ⟨[secondBU], 2⟩
      = ⟨[⟨"s", -1, 1, "", "s", Conv.return_self⟩], 1 / 2⟩ := by
  refine ⟨fun k q => ⟨InvertUnit_eq_map q.unit, rfl⟩, ?_⟩
  simp [scalarDiv, InvertUnit, InvertBaseUnit, secondBU]

end UnitHpp
